import Mathlib

/-!
Shallow embedding of `main.py` of the yt-captions microservice.

Strings are modelled as `List Char` (ASCII view of Python `str`).  A cue
file's contents are modelled as the list of its physical lines, which is
what `for raw in f` iterates over (the trailing newline of each line is
irrelevant because every line is immediately `strip()`ped).

Python's regular expressions over these simple patterns are modelled by
structurally recursive scanners; functions whose Python originals scan
with a shrinking remainder are given an explicit fuel argument (the input
length) so that every definition computes by kernel reduction.
-/

namespace YtCaptions

/-- Python whitespace (`str.strip`, regex `\s`), ASCII part:
space, tab, newline, carriage return, vertical tab, form feed. -/
def wsChar (c : Char) : Bool :=
  c = ' ' || c = '\t' || c = '\n' || c = '\r' || c = '\x0B' || c = '\x0C'

/-- Regex `\w` (ASCII part): letters, digits and underscore. -/
def wordChar (c : Char) : Bool :=
  c.isAlphanum || c = '_'

/-- `str.lower` (ASCII). -/
def lowerL (l : List Char) : List Char :=
  l.map Char.toLower

/-- Remove trailing whitespace (the right half of Python `str.strip()`). -/
def stripTrail : List Char → List Char
  | [] => []
  | c :: cs =>
    match stripTrail cs with
    | [] => if wsChar c then [] else [c]
    | d :: ds => c :: d :: ds

/-- Python `str.strip()`: drop leading and trailing whitespace. -/
def stripStr (l : List Char) : List Char :=
  (stripTrail l).dropWhile wsChar

/-- Replace every maximal run of whitespace by a single space:
`re.sub(r"\s+", " ", text)` (main.py line 59). -/
def collapseWs : List Char → List Char
  | [] => []
  | c :: cs =>
    let r := collapseWs cs
    if wsChar c then
      match r with
      | [] => [' ']
      | d :: ds => if wsChar d then d :: ds else ' ' :: d :: ds
    else
      c :: r

/-- No two adjacent whitespace characters (no whitespace run longer
than one character). -/
def noDub : List Char → Bool
  | a :: b :: rest => (!(wsChar a && wsChar b)) && noDub (b :: rest)
  | _ => true

/-- The first character, if any, is whitespace. -/
def headSpace : List Char → Bool
  | [] => false
  | c :: _ => wsChar c

/-- The last character, if any, is whitespace. -/
def lastSpace : List Char → Bool
  | [] => false
  | [c] => wsChar c
  | _ :: d :: ds => lastSpace (d :: ds)

/-- Every whitespace character of the list is a plain space. -/
def onlySp (l : List Char) : Bool :=
  l.all fun c => !wsChar c || c = ' '

/-- A maximal run of `\w` characters (a word) or of non-`\w` characters
(a separator), as produced by scanning a string left to right. -/
inductive Tok where
  | word (w : List Char) : Tok
  | sep (s : List Char) : Tok
deriving DecidableEq, Repr

/-- The characters of a token. -/
def Tok.chars : Tok → List Char
  | .word w => w
  | .sep s => s

/-- Split a string into maximal word / separator runs.  Fuel-driven so
that it is structurally recursive; `tokenize` supplies fuel equal to the
input length, which always suffices. -/
def tokenizeF : Nat → List Char → List Tok
  | 0, _ => []
  | _, [] => []
  | fuel + 1, c :: cs =>
    if wordChar c then
      Tok.word (c :: cs.takeWhile wordChar) :: tokenizeF fuel (cs.dropWhile wordChar)
    else
      Tok.sep (c :: cs.takeWhile fun d => !wordChar d) ::
        tokenizeF fuel (cs.dropWhile fun d => !wordChar d)

/-- Split a string into maximal word / separator runs. -/
def tokenize (l : List Char) : List Tok :=
  tokenizeF l.length l

/-- Concatenate a token list back into a string. -/
def render : List Tok → List Char
  | [] => []
  | t :: ts => t.chars ++ render ts

/-- One left-to-right, non-overlapping pass of
`re.sub(r"\b(\w{2,})\s+\1\b", r"\1", text, flags=re.IGNORECASE)`
(main.py line 62) over the token list.  A match is a maximal word run of
length at least two, a whitespace-only separator, and a second maximal
word run equal to the first up to case; the match is replaced by the
first word and scanning resumes after the second word. -/
def collapseRepeatsF : Nat → List Tok → List Tok
  | 0, ts => ts
  | fuel + 1, Tok.word w1 :: Tok.sep s :: Tok.word w2 :: rest =>
    if 2 ≤ w1.length ∧ s.all wsChar = true ∧ lowerL w1 = lowerL w2 then
      Tok.word w1 :: collapseRepeatsF fuel rest
    else
      Tok.word w1 :: collapseRepeatsF fuel (Tok.sep s :: Tok.word w2 :: rest)
  | _ + 1, [] => []
  | fuel + 1, t :: rest => t :: collapseRepeatsF fuel rest

/-- The immediate word-repeat collapse of main.py line 62. -/
def wordRepeatCollapse (l : List Char) : List Char :=
  render (collapseRepeatsF (tokenize l).length (tokenize l))

/-- `s.startswith(("WEBVTT", "Kind:", "Language:"))` (main.py line 40). -/
def startsDrop (l : List Char) : Bool :=
  List.isPrefixOf "WEBVTT".toList l || List.isPrefixOf "Kind:".toList l ||
    List.isPrefixOf "Language:".toList l

/-- `s.isdigit()` (main.py line 42): non-empty and all digits. -/
def isDigitStr (l : List Char) : Bool :=
  !l.isEmpty && l.all Char.isDigit

/-- `TIMESTAMP_RE.search(s)` with pattern `^\d{2}:\d{2}:\d{2}\.\d{3} --> `
(main.py lines 15/19): anchored at the start of the line. -/
def timestampLine (l : List Char) : Bool :=
  match l with
  | d1 :: d2 :: ':' :: d3 :: d4 :: ':' :: d5 :: d6 :: '.' :: d7 :: d8 :: d9 ::
      ' ' :: '-' :: '-' :: '>' :: ' ' :: _ =>
    d1.isDigit && d2.isDigit && d3.isDigit && d4.isDigit && d5.isDigit &&
      d6.isDigit && d7.isDigit && d8.isDigit && d9.isDigit
  | _ => false

/-- `"-->" in s` (main.py line 44). -/
def arrowInfix (l : List Char) : Bool :=
  decide (['-', '-', '>'] <:+: l)

/-- The full time-range test of main.py line 44. -/
def timeLike (l : List Char) : Bool :=
  timestampLine l || arrowInfix l

/-- `NOISE_BRACKETS.match(s)` with pattern `^\[[^\]]+\]$` (main.py
lines 21/46): the whole line is a bracketed annotation. -/
def noiseBracket (l : List Char) : Bool :=
  match l with
  | '[' :: rest =>
    decide (2 ≤ rest.length) && rest.dropLast.all (fun c => !(c = ']' : Bool)) &&
      (rest.getLast? = some ']' : Bool)
  | _ => false

/-- Helper for tag stripping: if the remainder after a `<` begins with a
match of `[^>]+>`, return the text after the closing `>`. -/
def tagRem (rest : List Char) : Option (List Char) :=
  let mid := rest.takeWhile fun d => !(d = '>' : Bool)
  if mid.isEmpty then none
  else
    match rest.dropWhile (fun d => !(d = '>' : Bool)) with
    | '>' :: rem => some rem
    | _ => none

/-- `VTT_TAG_RE.sub("", s)` with pattern `<[^>]+>` (main.py lines 14/49):
remove inline markup tags, keeping everything else.  Fuel-driven;
`stripTags` supplies the input length, which always suffices. -/
def stripTagsF : Nat → List Char → List Char
  | 0, l => l
  | _ + 1, [] => []
  | fuel + 1, c :: cs =>
    if c = '<' then
      match tagRem cs with
      | some rem => stripTagsF fuel rem
      | none => c :: stripTagsF fuel cs
    else
      c :: stripTagsF fuel cs

/-- `VTT_TAG_RE.sub("", s)`: remove `<...>` markup tags. -/
def stripTags (l : List Char) : List Char :=
  stripTagsF l.length l

/-- The word list of `too_similar` (main.py lines 24-25):
`[w for w in re.findall(r"\w+", a.lower()) if len(w) > 1]`. -/
def simWords (a : List Char) : List (List Char) :=
  (tokenize (lowerL a)).filterMap fun t =>
    match t with
    | .word w => if 2 ≤ w.length then some w else none
    | .sep _ => none

/-- `too_similar(a, b)` (main.py lines 23-30).  The word lists are turned
into sets by `List.dedup`; the Python float comparison
`len(aset & bset) / min(len(aset), len(bset)) >= 0.8` is modelled as the
exact rational comparison `4 * min ≤ 5 * |intersection|`. -/
def tooSimilar (a b : List Char) : Bool :=
  let aw := simWords a
  let bw := simWords b
  !aw.isEmpty && !bw.isEmpty &&
    (let aset := aw.dedup
     let bset := bw.dedup
     decide (4 * min aset.length bset.length ≤
       5 * (aset.filter fun w => bset.contains w).length))

/-- The line loop of `vtt_to_text` (main.py lines 32-56): strip each
line, skip blank/header/index/time/noise lines, strip tags, then drop the
line when it is too similar to the previously kept line. -/
def keepLines : List (List Char) → List Char → List (List Char)
  | [], _ => []
  | raw :: rest, prev =>
    let s := stripStr raw
    if s.isEmpty then keepLines rest prev
    else if startsDrop s then keepLines rest prev
    else if isDigitStr s then keepLines rest prev
    else if timeLike s then keepLines rest prev
    else if noiseBracket s then keepLines rest prev
    else
      let s2 := stripTags s
      if prev ≠ [] ∧ tooSimilar s2 prev = true then keepLines rest prev
      else s2 :: keepLines rest s2

/-- `" ".join(lines)` (main.py line 58). -/
def joinSpace (ls : List (List Char)) : List Char :=
  List.intercalate [' '] ls

/-- `vtt_to_text` (main.py lines 17-64) on the list of physical lines of
the cue file: keep caption lines, join with spaces, collapse whitespace,
strip, then collapse immediate word repeats. -/
def vtt_to_text (lines : List (List Char)) : List Char :=
  wordRepeatCollapse (stripStr (collapseWs (joinSpace (keepLines lines []))))

/-- The two caption pools of `get_subs` (main.py line 140). -/
inductive Pool where
  | auto : Pool
  | manual : Pool
deriving DecidableEq, Repr

/-- `find_prefix(langs, prefix)` (main.py lines 133-137): the first
non-empty code whose lowercase form starts with the lowercase requested
language. -/
def findLangMatch (langs : List (List Char)) (pre : List Char) : Option (List Char) :=
  langs.find? fun code => !code.isEmpty && List.isPrefixOf (lowerL pre) (lowerL code)

/-- The per-pool choice of `get_subs` (main.py lines 143/146):
`lang if lang in pool else (find_prefix(pool, lang) or pool[0])`.
`find_prefix` never returns the empty (falsy) string, so the Python `or`
is `Option.getD`. -/
def choosePool (first : List Char) (rest : List (List Char)) (lang : List Char) :
    List Char :=
  if lang ∈ first :: rest then lang
  else (findLangMatch (first :: rest) lang).getD first

/-- Track selection of `get_subs` (main.py lines 139-149): prefer the
automatic pool, fall back to the manual pool, and fail (`HTTP 404`,
"No subtitles advertised") when both are empty. -/
def select (auto_caps manual_subs : List (List Char)) (lang : List Char) :
    Option (List Char × Pool) :=
  match auto_caps, manual_subs with
  | f :: r, _ => some (choosePool f r lang, Pool.auto)
  | [], f :: r => some (choosePool f r lang, Pool.manual)
  | [], [] => none

/-- The spec's own wording of the per-pool rule (§4.1 steps a-c), for
comparison with `choosePool`: exact key, else the first key that
case-insensitively starts with the requested language, else the pool's
first key. -/
def specChoose (first : List Char) (rest : List (List Char)) (lang : List Char) :
    List Char :=
  if lang ∈ first :: rest then lang
  else
    match (first :: rest).find? (fun k => List.isPrefixOf (lowerL lang) (lowerL k)) with
    | some k => k
    | none => first

/-- The error kinds raised by `get_subs` after a successful probe
(main.py lines 148-173). -/
inductive SubsError where
  | noCaptions : SubsError
  | materializeFailure : SubsError
  | missingOutput : SubsError
  | emptyTrack : SubsError
deriving DecidableEq, Repr

/-- The probe metadata used by `get_subs` (main.py lines 130-131): the
advertised automatic and manual language codes. -/
structure ProbeInfo where
  automatic_captions : List (List Char)
  subtitles : List (List Char)

/-- `get_subs` after a successful probe (main.py lines 130-185),
abstracting the two external `yt-dlp` calls: `downloadOk` is whether the
download invocation exits successfully, and `vtts` lists the contents
(as line lists) of the cue files the glob discovers.  Errors carry the
HTTP status of the corresponding `HTTPException`. -/
def get_subs (info : ProbeInfo) (lang : List Char) (downloadOk : Bool)
    (vtts : List (List (List Char))) :
    Except (Nat × SubsError) (List Char × Pool × List Char) :=
  match select info.automatic_captions info.subtitles lang with
  | none => .error (404, SubsError.noCaptions)
  | some (chosen, pool) =>
    if downloadOk = false then .error (404, SubsError.materializeFailure)
    else
      match vtts with
      | [] => .error (404, SubsError.missingOutput)
      | v :: _ =>
        let text := vtt_to_text v
        if text = [] then .error (422, SubsError.emptyTrack)
        else .ok (chosen, pool, text)

/-- The error kinds raised by `write_cookies_file` (main.py lines 66-86). -/
inductive CookieError where
  | decodeError : CookieError
  | noCookies : CookieError
deriving DecidableEq, Repr

/-- `write_cookies_file` (main.py lines 66-86).  `decode` abstracts the
external library call `base64.b64decode(...).decode("utf-8", "ignore")`
(`Except.error` models the raised exception); `b64Env` and `rawEnv` are
the values of `YOUTUBE_COOKIES_B64` and `YOUTUBE_COOKIES` (empty when
unset).  On success the written cookie text is returned; errors carry
the HTTP status of the `HTTPException`. -/
def write_cookies_file (decode : List Char → Except (List Char) (List Char))
    (b64Env rawEnv : List Char) : Except (Nat × CookieError) (List Char) :=
  let cookies_b64 := stripStr b64Env
  let cookies_raw := stripStr rawEnv
  if cookies_b64 ≠ [] then
    match decode cookies_b64 with
    | .error _ => .error (500, CookieError.decodeError)
    | .ok t => if t = [] then .error (500, CookieError.noCookies) else .ok t
  else if cookies_raw ≠ [] then .ok cookies_raw
  else .error (500, CookieError.noCookies)

/-- The token list does not begin with a separator. -/
def tokOKHead : List Tok → Bool
  | Tok.sep _ :: _ => false
  | _ => true

/-- Well-formed token lists: words are non-empty runs of word characters,
separators are non-empty with no doubled whitespace, and no two
separators are adjacent. -/
def toksOK : List Tok → Bool
  | [] => true
  | Tok.word w :: rest => !w.isEmpty && w.all wordChar && toksOK rest
  | Tok.sep s :: rest => !s.isEmpty && noDub s && tokOKHead rest && toksOK rest

/-! ### Basic whitespace lemmas -/

theorem wordChar_ws_false {c : Char} (h : wordChar c = true) : wsChar c = false := by
  by_contra hne
  have hws : wsChar c = true := by
    cases hx : wsChar c
    · exact absurd hx hne
    · rfl
  rcases Bool.or_eq_true_iff.mp hws with h1 | h1
  · rcases Bool.or_eq_true_iff.mp h1 with h2 | h2
    · rcases Bool.or_eq_true_iff.mp h2 with h3 | h3
      · rcases Bool.or_eq_true_iff.mp h3 with h4 | h4
        · rcases Bool.or_eq_true_iff.mp h4 with h5 | h5
          · cases decide_eq_true_eq.mp h5; simp [wordChar, Char.isAlphanum,
              Char.isAlpha, Char.isUpper, Char.isLower, Char.isDigit] at h
          · cases decide_eq_true_eq.mp h5; simp [wordChar, Char.isAlphanum,
              Char.isAlpha, Char.isUpper, Char.isLower, Char.isDigit] at h
        · cases decide_eq_true_eq.mp h4; simp [wordChar, Char.isAlphanum,
            Char.isAlpha, Char.isUpper, Char.isLower, Char.isDigit] at h
      · cases decide_eq_true_eq.mp h3; simp [wordChar, Char.isAlphanum,
          Char.isAlpha, Char.isUpper, Char.isLower, Char.isDigit] at h
    · cases decide_eq_true_eq.mp h2; simp [wordChar, Char.isAlphanum,
        Char.isAlpha, Char.isUpper, Char.isLower, Char.isDigit] at h
  · cases decide_eq_true_eq.mp h1; simp [wordChar, Char.isAlphanum,
      Char.isAlpha, Char.isUpper, Char.isLower, Char.isDigit] at h

theorem noDub_tail {a : Char} {l : List Char} (h : noDub (a :: l) = true) :
    noDub l = true := by
  cases l with
  | nil => rfl
  | cons b bs => exact (Bool.and_eq_true_iff.mp h).2

theorem noDub_cons {a b : Char} {l : List Char} :
    noDub (a :: b :: l) = true ↔
      (wsChar a = false ∨ wsChar b = false) ∧ noDub (b :: l) = true := by
  constructor
  · intro h
    have h2 := Bool.and_eq_true_iff.mp h
    refine ⟨?_, h2.2⟩
    have h3 := h2.1
    cases ha : wsChar a
    · exact Or.inl rfl
    · cases hb : wsChar b
      · exact Or.inr rfl
      · rw [ha, hb] at h3
        exact absurd h3 (by decide)
  · intro h
    apply Bool.and_eq_true_iff.mpr
    refine ⟨?_, h.2⟩
    rcases h.1 with h1 | h1 <;> simp [h1]

theorem noDub_singleton (c : Char) : noDub [c] = true := rfl

theorem headSpace_append {A B : List Char} (h : A ≠ []) :
    headSpace (A ++ B) = headSpace A := by
  cases A with
  | nil => exact absurd rfl h
  | cons a as => rfl

theorem lastSpace_cons_cons (a b : Char) (l : List Char) :
    lastSpace (a :: b :: l) = lastSpace (b :: l) := rfl

theorem lastSpace_append {A B : List Char} (h : B ≠ []) :
    lastSpace (A ++ B) = lastSpace B := by
  induction A with
  | nil => rfl
  | cons a as ih =>
    cases hb : B with
    | nil => exact absurd hb h
    | cons b bs =>
      subst hb
      cases as with
      | nil => rfl
      | cons x xs =>
        have h2 := ih
        simpa [List.cons_append, lastSpace_cons_cons] using h2

theorem noDub_append {A B : List Char} (hA : noDub A = true) (hB : noDub B = true)
    (hj : lastSpace A = false ∨ headSpace B = false) : noDub (A ++ B) = true := by
  induction A with
  | nil => simpa using hB
  | cons a as ih =>
    cases as with
    | nil =>
      cases B with
      | nil => rfl
      | cons b bs =>
        rw [List.singleton_append, noDub_cons]
        refine ⟨?_, hB⟩
        rcases hj with hj | hj
        · exact Or.inl hj
        · exact Or.inr hj
    | cons x xs =>
      have hstep := (noDub_cons.mp hA).1
      have htail : noDub (x :: xs) = true := (noDub_cons.mp hA).2
      have hj2 : lastSpace (x :: xs) = false ∨ headSpace B = false := by
        rcases hj with hj | hj
        · exact Or.inl (by simpa [lastSpace_cons_cons] using hj)
        · exact Or.inr hj
      have := ih htail hj2
      rw [List.cons_append, List.cons_append]
      rw [List.cons_append] at this
      exact noDub_cons.mpr ⟨hstep, this⟩

theorem noDub_append_left {A B : List Char} (h : noDub (A ++ B) = true) :
    noDub A = true := by
  induction A with
  | nil => rfl
  | cons a as ih =>
    cases as with
    | nil => rfl
    | cons x xs =>
      rw [List.cons_append, List.cons_append] at h
      have h1 := (noDub_cons.mp h).1
      have h2 := (noDub_cons.mp h).2
      rw [← List.cons_append] at h2
      exact noDub_cons.mpr ⟨h1, ih h2⟩

theorem noDub_append_right {A B : List Char} (h : noDub (A ++ B) = true) :
    noDub B = true := by
  induction A with
  | nil => simpa using h
  | cons a as ih =>
    apply ih
    exact noDub_tail (by simpa [List.cons_append] using h)

theorem noDub_of_noWs {l : List Char} (h : ∀ c ∈ l, wsChar c = false) :
    noDub l = true := by
  induction l with
  | nil => rfl
  | cons a as ih =>
    cases as with
    | nil => rfl
    | cons b bs =>
      refine noDub_cons.mpr ⟨Or.inl (h a (by simp)), ih ?_⟩
      intro c hc
      exact h c (by simp [hc])

theorem lastSpace_of_noWs {l : List Char} (h : ∀ c ∈ l, wsChar c = false) :
    lastSpace l = false := by
  induction l with
  | nil => rfl
  | cons a as ih =>
    cases as with
    | nil => exact h a (by simp)
    | cons b bs =>
      rw [lastSpace_cons_cons]
      exact ih fun c hc => h c (by simp [hc])

theorem headSpace_of_noWs {l : List Char} (h : ∀ c ∈ l, wsChar c = false) :
    headSpace l = false := by
  cases l with
  | nil => rfl
  | cons a as => exact h a (by simp)

theorem onlySp_mono {A B : List Char} (hsub : ∀ c ∈ A, c ∈ B)
    (h : onlySp B = true) : onlySp A = true := by
  rw [onlySp, List.all_eq_true]
  intro c hc
  exact (List.all_eq_true.mp h) c (hsub c hc)

/-! ### Lemmas about `stripTrail`, `dropWhile` and `stripStr` -/

theorem stripTrail_head {l : List Char} {d : Char} {ds : List Char}
    (h : stripTrail l = d :: ds) : ∃ es, l = d :: es := by
  cases l with
  | nil => simp [stripTrail] at h
  | cons c cs =>
    refine ⟨cs, ?_⟩
    rw [stripTrail] at h
    cases hr : stripTrail cs with
    | nil =>
      rw [hr] at h
      by_cases hw : wsChar c
      · simp [hw] at h
      · simp [hw] at h
        rw [h.1]
    | cons x xs =>
      rw [hr] at h
      cases h
      rfl

theorem lastSpace_stripTrail (l : List Char) : lastSpace (stripTrail l) = false := by
  induction l with
  | nil => rfl
  | cons c cs ih =>
    rw [stripTrail]
    cases hr : stripTrail cs with
    | nil =>
      by_cases hw : wsChar c
      · simp [hw, lastSpace]
      · have hw2 : wsChar c = false := by simpa using hw
        simp [hw2, lastSpace]
    | cons x xs =>
      rw [hr] at ih
      simpa [lastSpace_cons_cons] using ih

theorem noDub_stripTrail {l : List Char} (h : noDub l = true) :
    noDub (stripTrail l) = true := by
  induction l with
  | nil => rfl
  | cons c cs ih =>
    have htail : noDub cs = true := noDub_tail h
    rw [stripTrail]
    cases hr : stripTrail cs with
    | nil =>
      by_cases hw : wsChar c <;> simp [hw, noDub_singleton, noDub]
    | cons x xs =>
      obtain ⟨es, hes⟩ := stripTrail_head hr
      subst hes
      have hstep : wsChar c = false ∨ wsChar x = false := (noDub_cons.mp h).1
      rw [hr] at ih
      exact noDub_cons.mpr ⟨hstep, ih htail⟩

theorem mem_stripTrail {l : List Char} {c : Char} (h : c ∈ stripTrail l) : c ∈ l := by
  induction l with
  | nil => simp [stripTrail] at h
  | cons a as ih =>
    rw [stripTrail] at h
    cases hr : stripTrail as with
    | nil =>
      rw [hr] at h
      by_cases hw : wsChar a
      · simp [hw] at h
      · simp [hw] at h
        simp [h]
    | cons x xs =>
      rw [hr] at h
      rcases List.mem_cons.mp h with h1 | h1
      · simp [h1]
      · refine List.mem_cons_of_mem a (ih ?_)
        rw [hr]
        exact h1

theorem stripTrail_eq_self {l : List Char} (h : lastSpace l = false) :
    stripTrail l = l := by
  induction l with
  | nil => rfl
  | cons c cs ih =>
    cases cs with
    | nil =>
      have hc : wsChar c = false := h
      simp [stripTrail, hc]
    | cons x xs =>
      have h2 : lastSpace (x :: xs) = false := by
        simpa [lastSpace_cons_cons] using h
      rw [stripTrail, ih h2]

theorem dropWhile_head_false {p : Char → Bool} :
    ∀ {l : List Char} {d : Char} {ds : List Char},
      l.dropWhile p = d :: ds → p d = false := by
  intro l
  induction l with
  | nil => intro d ds h; simp [List.dropWhile] at h
  | cons a as ih =>
    intro d ds h
    rw [List.dropWhile] at h
    by_cases hp : p a
    · simp only [hp] at h
      exact ih h
    · simp only [Bool.not_eq_true] at hp
      simp only [hp] at h
      cases h
      exact hp

theorem headSpace_dropWhile_ws (l : List Char) :
    headSpace (l.dropWhile wsChar) = false := by
  cases hr : l.dropWhile wsChar with
  | nil => rfl
  | cons d ds => simpa [headSpace] using dropWhile_head_false hr

theorem lastSpace_dropWhile {p : Char → Bool} {l : List Char}
    (h : lastSpace l = false) : lastSpace (l.dropWhile p) = false := by
  induction l with
  | nil => rfl
  | cons c cs ih =>
    rw [List.dropWhile]
    by_cases hp : p c
    · simp only [hp]
      cases cs with
      | nil => rfl
      | cons x xs => exact ih (by simpa [lastSpace_cons_cons] using h)
    · simp only [Bool.not_eq_true] at hp
      simp only [hp]
      exact h

theorem noDub_dropWhile {p : Char → Bool} {l : List Char} (h : noDub l = true) :
    noDub (l.dropWhile p) = true := by
  have heq : l.takeWhile p ++ l.dropWhile p = l := List.takeWhile_append_dropWhile p l
  rw [← heq] at h
  exact noDub_append_right h

theorem noDub_takeWhile {p : Char → Bool} {l : List Char} (h : noDub l = true) :
    noDub (l.takeWhile p) = true := by
  have heq : l.takeWhile p ++ l.dropWhile p = l := List.takeWhile_append_dropWhile p l
  rw [← heq] at h
  exact noDub_append_left h

theorem dropWhile_eq_self {p : Char → Bool} {l : List Char}
    (h : ∀ d ds, l = d :: ds → p d = false) : l.dropWhile p = l := by
  cases l with
  | nil => rfl
  | cons c cs => simp [List.dropWhile, h c cs rfl]

theorem noDub_stripStr {l : List Char} (h : noDub l = true) :
    noDub (stripStr l) = true :=
  noDub_dropWhile (noDub_stripTrail h)

theorem headSpace_stripStr (l : List Char) : headSpace (stripStr l) = false :=
  headSpace_dropWhile_ws (stripTrail l)

theorem lastSpace_stripStr (l : List Char) : lastSpace (stripStr l) = false :=
  lastSpace_dropWhile (lastSpace_stripTrail l)

theorem mem_stripStr {l : List Char} {c : Char} (h : c ∈ stripStr l) : c ∈ l := by
  rw [stripStr] at h
  have h2 : c ∈ stripTrail l := by
    have hsplit := List.takeWhile_append_dropWhile wsChar (stripTrail l)
    rw [← hsplit]
    exact List.mem_append_right _ h
  exact mem_stripTrail h2

theorem onlySp_stripStr {l : List Char} (h : onlySp l = true) :
    onlySp (stripStr l) = true :=
  onlySp_mono (fun _ hc => mem_stripStr hc) h

theorem stripStr_eq_self {l : List Char} (h1 : headSpace l = false)
    (h2 : lastSpace l = false) : stripStr l = l := by
  rw [stripStr, stripTrail_eq_self h2]
  apply dropWhile_eq_self
  intro d ds hd
  subst hd
  exact h1

/-! ### Lemmas about `collapseWs` -/

theorem noDub_collapseWs (l : List Char) : noDub (collapseWs l) = true := by
  induction l with
  | nil => rfl
  | cons c cs ih =>
    rw [collapseWs]
    by_cases hw : wsChar c
    · simp only [hw, if_true]
      cases hr : collapseWs cs with
      | nil => rfl
      | cons d ds =>
        rw [hr] at ih
        by_cases hd : wsChar d
        · simp only [hd, if_true]
          exact ih
        · simp only [hd, if_false]
          exact noDub_cons.mpr ⟨Or.inr (by simpa using hd), ih⟩
    · simp only [hw, if_false]
      cases hr : collapseWs cs with
      | nil => rfl
      | cons d ds =>
        rw [hr] at ih
        exact noDub_cons.mpr ⟨Or.inl (by simpa using hw), ih⟩

theorem onlySp_cons {c : Char} {l : List Char} :
    onlySp (c :: l) = true ↔ (wsChar c = false ∨ c = ' ') ∧ onlySp l = true := by
  rw [onlySp, List.all_cons, Bool.and_eq_true_iff]
  constructor
  · intro h
    refine ⟨?_, h.2⟩
    rcases Bool.or_eq_true_iff.mp h.1 with h1 | h1
    · exact Or.inl (by simpa using h1)
    · exact Or.inr (decide_eq_true_eq.mp h1)
  · intro h
    refine ⟨?_, h.2⟩
    rcases h.1 with h1 | h1 <;> simp [h1]

theorem onlySp_collapseWs (l : List Char) : onlySp (collapseWs l) = true := by
  induction l with
  | nil => rfl
  | cons c cs ih =>
    rw [collapseWs]
    by_cases hw : wsChar c
    · rw [if_pos hw]
      cases hr : collapseWs cs with
      | nil => simp [onlySp, wsChar]
      | cons d ds =>
        rw [hr] at ih
        show onlySp (if wsChar d = true then d :: ds else ' ' :: d :: ds) = true
        by_cases hd : wsChar d
        · rw [if_pos hd]
          exact ih
        · rw [if_neg hd]
          exact onlySp_cons.mpr ⟨Or.inr rfl, ih⟩
    · rw [if_neg hw]
      exact onlySp_cons.mpr ⟨Or.inl (by simpa using hw), ih⟩

theorem collapseWs_eq_self {l : List Char} (h1 : onlySp l = true)
    (h2 : noDub l = true) : collapseWs l = l := by
  induction l with
  | nil => rfl
  | cons c cs ih =>
    have h1t : onlySp cs = true := by
      rw [onlySp, List.all_cons] at h1
      exact (Bool.and_eq_true_iff.mp h1).2
    have hrec : collapseWs cs = cs := ih h1t (noDub_tail h2)
    rw [collapseWs, hrec]
    by_cases hw : wsChar c
    · have hc : c = ' ' := by
        rcases (onlySp_cons.mp h1).1 with hx | hx
        · rw [hw] at hx
          exact absurd hx (by decide)
        · exact hx
      rw [if_pos hw]
      cases cs with
      | nil => rw [hc]
      | cons d ds =>
        have hd : ¬wsChar d = true := by
          rcases (noDub_cons.mp h2).1 with hx | hx
          · rw [hw] at hx
            exact absurd hx (by decide)
          · simp [hx]
        show (if wsChar d = true then d :: ds else ' ' :: d :: ds) = c :: d :: ds
        rw [if_neg hd, hc]
    · rw [if_neg hw]

/-! ### Lemmas about the tokenizer -/

theorem dropWhile_length_le (p : Char → Bool) (l : List Char) :
    (l.dropWhile p).length ≤ l.length :=
  (List.dropWhile_sublist p).length_le

theorem all_takeWhile (p : Char → Bool) (l : List Char) :
    (l.takeWhile p).all p = true := by
  rw [List.all_eq_true]
  intro c hc
  exact List.mem_takeWhile_imp hc

theorem render_tokenizeF :
    ∀ (fuel : Nat) (l : List Char), l.length ≤ fuel →
      render (tokenizeF fuel l) = l := by
  intro fuel
  induction fuel with
  | zero =>
    intro l hl
    rw [Nat.le_zero, List.length_eq_zero] at hl
    subst hl
    rfl
  | succ n ih =>
    intro l hl
    cases l with
    | nil => rfl
    | cons c cs =>
      rw [tokenizeF]
      by_cases hw : wordChar c
      · rw [if_pos hw, render, Tok.chars]
        have hlen : (cs.dropWhile wordChar).length ≤ n := by
          have := dropWhile_length_le wordChar cs
          have hcs : cs.length ≤ n := by simpa using hl
          omega
        rw [ih _ hlen, List.cons_append, List.takeWhile_append_dropWhile]
      · rw [if_neg hw, render, Tok.chars]
        have hlen : (cs.dropWhile fun d => !wordChar d).length ≤ n := by
          have := dropWhile_length_le (fun d => !wordChar d) cs
          have hcs : cs.length ≤ n := by simpa using hl
          omega
        rw [ih _ hlen, List.cons_append, List.takeWhile_append_dropWhile]

theorem render_tokenize (l : List Char) : render (tokenize l) = l :=
  render_tokenizeF l.length l le_rfl

theorem toksOK_tokenizeF :
    ∀ (fuel : Nat) (l : List Char), l.length ≤ fuel → noDub l = true →
      toksOK (tokenizeF fuel l) = true := by
  intro fuel
  induction fuel with
  | zero =>
    intro l _ _
    cases l <;> rfl
  | succ n ih =>
    intro l hl hnd
    cases l with
    | nil => rfl
    | cons c cs =>
      have hcs : cs.length ≤ n := by simpa using hl
      rw [tokenizeF]
      by_cases hw : wordChar c
      · rw [if_pos hw, toksOK]
        refine Bool.and_eq_true_iff.mpr ⟨Bool.and_eq_true_iff.mpr ⟨by simp, ?_⟩, ?_⟩
        · rw [List.all_cons]
          exact Bool.and_eq_true_iff.mpr ⟨hw, all_takeWhile wordChar cs⟩
        · refine ih _ ?_ (noDub_dropWhile (noDub_tail hnd))
          have := dropWhile_length_le wordChar cs
          omega
      · rw [if_neg hw, toksOK]
        refine Bool.and_eq_true_iff.mpr ⟨Bool.and_eq_true_iff.mpr
          ⟨Bool.and_eq_true_iff.mpr ⟨by simp, ?_⟩, ?_⟩, ?_⟩
        · have hpre : noDub (c :: cs.takeWhile fun d => !wordChar d) = true := by
            have heq : (c :: cs.takeWhile fun d => !wordChar d) ++
                cs.dropWhile (fun d => !wordChar d) = c :: cs := by
              rw [List.cons_append, List.takeWhile_append_dropWhile]
            have hnd2 := hnd
            rw [← heq] at hnd2
            exact noDub_append_left hnd2
          exact hpre
        · cases hdw : cs.dropWhile (fun d => !wordChar d) with
          | nil => cases n <;> rfl
          | cons d ds =>
            have hd : wordChar d = true := by
              have := dropWhile_head_false hdw
              simpa using this
            cases n with
            | zero => rfl
            | succ m =>
              rw [tokenizeF, if_pos hd]
              rfl
        · refine ih _ ?_ (noDub_dropWhile (noDub_tail hnd))
          have := dropWhile_length_le (fun d => !wordChar d) cs
          omega

theorem toksOK_tokenize {l : List Char} (h : noDub l = true) :
    toksOK (tokenize l) = true :=
  toksOK_tokenizeF l.length l le_rfl h

/-! ### Lemmas about `collapseRepeatsF` -/

theorem toksOK_tail {t : Tok} {rest : List Tok} (h : toksOK (t :: rest) = true) :
    toksOK rest = true := by
  cases t with
  | word w => exact (Bool.and_eq_true_iff.mp h).2
  | sep s => exact (Bool.and_eq_true_iff.mp h).2

theorem toksOK_word_fields {w : List Char} {rest : List Tok}
    (h : toksOK (Tok.word w :: rest) = true) :
    w ≠ [] ∧ w.all wordChar = true := by
  have h1 := (Bool.and_eq_true_iff.mp h).1
  have h2 := Bool.and_eq_true_iff.mp h1
  exact ⟨by simpa using h2.1, h2.2⟩

theorem toksOK_sep_fields {s : List Char} {rest : List Tok}
    (h : toksOK (Tok.sep s :: rest) = true) :
    s ≠ [] ∧ noDub s = true ∧ tokOKHead rest = true := by
  have h1 := (Bool.and_eq_true_iff.mp h).1
  have h2 := Bool.and_eq_true_iff.mp h1
  have h3 := Bool.and_eq_true_iff.mp h2.1
  exact ⟨by simpa using h3.1, h3.2, h2.2⟩

theorem tok_chars_ne_nil {t : Tok} {rest : List Tok}
    (h : toksOK (t :: rest) = true) : t.chars ≠ [] := by
  cases t with
  | word w => exact (toksOK_word_fields h).1
  | sep s => exact (toksOK_sep_fields h).1

theorem word_all_noWs {w : List Char} (h : w.all wordChar = true) :
    ∀ c ∈ w, wsChar c = false := fun c hc =>
  wordChar_ws_false ((List.all_eq_true.mp h) c hc)

theorem crF_nil (fuel : Nat) : collapseRepeatsF fuel [] = [] := by
  cases fuel <;> rfl

theorem crF_cons (fuel : Nat) (t : Tok) (rest : List Tok) :
    ∃ l2, collapseRepeatsF fuel (t :: rest) = t :: l2 := by
  cases fuel with
  | zero => exact ⟨rest, rfl⟩
  | succ n =>
    cases t with
    | sep s => exact ⟨collapseRepeatsF n rest, rfl⟩
    | word w1 =>
      cases rest with
      | nil => exact ⟨collapseRepeatsF n [], rfl⟩
      | cons t2 rest2 =>
        cases t2 with
        | word w2 => exact ⟨collapseRepeatsF n (Tok.word w2 :: rest2), rfl⟩
        | sep s =>
          cases rest2 with
          | nil => exact ⟨collapseRepeatsF n [Tok.sep s], rfl⟩
          | cons t3 rest3 =>
            cases t3 with
            | sep s2 => exact ⟨collapseRepeatsF n (Tok.sep s :: Tok.sep s2 :: rest3), rfl⟩
            | word w2 =>
              by_cases hc : 2 ≤ w1.length ∧ s.all wsChar = true ∧ lowerL w1 = lowerL w2
              · exact ⟨collapseRepeatsF n rest3, by rw [collapseRepeatsF, if_pos hc]⟩
              · exact ⟨collapseRepeatsF n (Tok.sep s :: Tok.word w2 :: rest3),
                  by rw [collapseRepeatsF, if_neg hc]⟩

theorem toksOK_crF :
    ∀ (fuel : Nat) (ts : List Tok), toksOK ts = true →
      toksOK (collapseRepeatsF fuel ts) = true := by
  intro fuel
  induction fuel with
  | zero => intro ts h; exact h
  | succ n ih =>
    intro ts h
    cases ts with
    | nil => exact h
    | cons t rest =>
      cases t with
      | sep s =>
        show toksOK (Tok.sep s :: collapseRepeatsF n rest) = true
        obtain ⟨hs1, hs2, hs3⟩ := toksOK_sep_fields h
        have hrest := toksOK_tail h
        rw [toksOK]
        refine Bool.and_eq_true_iff.mpr ⟨Bool.and_eq_true_iff.mpr
          ⟨Bool.and_eq_true_iff.mpr ⟨by simpa using hs1, hs2⟩, ?_⟩, ih rest hrest⟩
        cases rest with
        | nil => rw [crF_nil]; rfl
        | cons u rest2 =>
          obtain ⟨l2, hl2⟩ := crF_cons n u rest2
          rw [hl2]
          cases u with
          | word w => rfl
          | sep s2 => exact absurd hs3 (by simp [tokOKHead])
      | word w1 =>
        obtain ⟨hw1, hw2⟩ := toksOK_word_fields h
        have hrest := toksOK_tail h
        cases rest with
        | nil =>
          show toksOK (Tok.word w1 :: collapseRepeatsF n []) = true
          rw [crF_nil, toksOK]
          exact Bool.and_eq_true_iff.mpr
            ⟨Bool.and_eq_true_iff.mpr ⟨by simpa using hw1, hw2⟩, rfl⟩
        | cons t2 rest2 =>
          cases t2 with
          | word w2 =>
            show toksOK (Tok.word w1 :: collapseRepeatsF n (Tok.word w2 :: rest2)) = true
            rw [toksOK]
            exact Bool.and_eq_true_iff.mpr
              ⟨Bool.and_eq_true_iff.mpr ⟨by simpa using hw1, hw2⟩, ih _ hrest⟩
          | sep s =>
            cases rest2 with
            | nil =>
              show toksOK (Tok.word w1 :: collapseRepeatsF n [Tok.sep s]) = true
              rw [toksOK]
              exact Bool.and_eq_true_iff.mpr
                ⟨Bool.and_eq_true_iff.mpr ⟨by simpa using hw1, hw2⟩, ih _ hrest⟩
            | cons t3 rest3 =>
              cases t3 with
              | sep s2 =>
                show toksOK (Tok.word w1 ::
                  collapseRepeatsF n (Tok.sep s :: Tok.sep s2 :: rest3)) = true
                rw [toksOK]
                exact Bool.and_eq_true_iff.mpr
                  ⟨Bool.and_eq_true_iff.mpr ⟨by simpa using hw1, hw2⟩, ih _ hrest⟩
              | word w2 =>
                by_cases hc : 2 ≤ w1.length ∧ s.all wsChar = true ∧ lowerL w1 = lowerL w2
                · rw [collapseRepeatsF, if_pos hc, toksOK]
                  have hrest3 : toksOK rest3 = true :=
                    toksOK_tail (toksOK_tail hrest)
                  exact Bool.and_eq_true_iff.mpr
                    ⟨Bool.and_eq_true_iff.mpr ⟨by simpa using hw1, hw2⟩, ih _ hrest3⟩
                · rw [collapseRepeatsF, if_neg hc, toksOK]
                  exact Bool.and_eq_true_iff.mpr
                    ⟨Bool.and_eq_true_iff.mpr ⟨by simpa using hw1, hw2⟩, ih _ hrest⟩

theorem render_ne_nil {t : Tok} {rest : List Tok}
    (h : toksOK (t :: rest) = true) : render (t :: rest) ≠ [] := by
  rw [render]
  intro hx
  exact tok_chars_ne_nil h (List.append_eq_nil.mp hx).1

theorem noDub_render : ∀ {ts : List Tok}, toksOK ts = true →
    noDub (render ts) = true := by
  intro ts
  induction ts with
  | nil => intro h; rfl
  | cons t rest ih =>
    intro h
    rw [render]
    cases t with
    | word w =>
      obtain ⟨hw1, hw2⟩ := toksOK_word_fields h
      refine noDub_append (noDub_of_noWs (word_all_noWs hw2)) (ih (toksOK_tail h)) ?_
      exact Or.inl (lastSpace_of_noWs (word_all_noWs hw2))
    | sep s =>
      obtain ⟨hs1, hs2, hs3⟩ := toksOK_sep_fields h
      refine noDub_append hs2 (ih (toksOK_tail h)) (Or.inr ?_)
      cases rest with
      | nil => rfl
      | cons u rest2 =>
        cases u with
        | sep s2 => exact absurd hs3 (by simp [tokOKHead])
        | word w2 =>
          rw [render, Tok.chars]
          have hw2 := toksOK_word_fields (toksOK_tail h)
          rw [headSpace_append hw2.1]
          exact headSpace_of_noWs (word_all_noWs hw2.2)

theorem headSpace_render_crF (fuel : Nat) {ts : List Tok}
    (h : toksOK ts = true) :
    headSpace (render (collapseRepeatsF fuel ts)) = headSpace (render ts) := by
  cases ts with
  | nil => rw [crF_nil]
  | cons t rest =>
    obtain ⟨l2, hl2⟩ := crF_cons fuel t rest
    rw [hl2, render, render, headSpace_append (tok_chars_ne_nil h),
      headSpace_append (tok_chars_ne_nil h)]

theorem mem_render_crF :
    ∀ (fuel : Nat) (ts : List Tok) (c : Char),
      c ∈ render (collapseRepeatsF fuel ts) → c ∈ render ts := by
  intro fuel
  induction fuel with
  | zero => intro ts c h; exact h
  | succ n ih =>
    intro ts c h
    cases ts with
    | nil => rwa [crF_nil] at h
    | cons t rest =>
      cases t with
      | sep s =>
        rw [show collapseRepeatsF (n + 1) (Tok.sep s :: rest) =
          Tok.sep s :: collapseRepeatsF n rest from rfl, render] at h
        rw [render]
        rcases List.mem_append.mp h with h2 | h2
        · exact List.mem_append_left _ h2
        · exact List.mem_append_right _ (ih rest c h2)
      | word w1 =>
        cases rest with
        | nil =>
          rw [show collapseRepeatsF (n + 1) [Tok.word w1] =
            Tok.word w1 :: collapseRepeatsF n [] from rfl, crF_nil] at h
          exact h
        | cons t2 rest2 =>
          cases t2 with
          | word w2 =>
            rw [show collapseRepeatsF (n + 1) (Tok.word w1 :: Tok.word w2 :: rest2) =
              Tok.word w1 :: collapseRepeatsF n (Tok.word w2 :: rest2) from rfl,
              render] at h
            rw [render]
            rcases List.mem_append.mp h with h2 | h2
            · exact List.mem_append_left _ h2
            · exact List.mem_append_right _ (ih _ c h2)
          | sep s =>
            cases rest2 with
            | nil =>
              rw [show collapseRepeatsF (n + 1) [Tok.word w1, Tok.sep s] =
                Tok.word w1 :: collapseRepeatsF n [Tok.sep s] from rfl, render] at h
              rw [render]
              rcases List.mem_append.mp h with h2 | h2
              · exact List.mem_append_left _ h2
              · exact List.mem_append_right _ (ih _ c h2)
            | cons t3 rest3 =>
              cases t3 with
              | sep s2 =>
                rw [show collapseRepeatsF (n + 1)
                    (Tok.word w1 :: Tok.sep s :: Tok.sep s2 :: rest3) =
                  Tok.word w1 :: collapseRepeatsF n (Tok.sep s :: Tok.sep s2 :: rest3)
                  from rfl, render] at h
                rw [render]
                rcases List.mem_append.mp h with h2 | h2
                · exact List.mem_append_left _ h2
                · exact List.mem_append_right _ (ih _ c h2)
              | word w2 =>
                by_cases hc : 2 ≤ w1.length ∧ s.all wsChar = true ∧
                    lowerL w1 = lowerL w2
                · rw [collapseRepeatsF, if_pos hc, render] at h
                  rw [render]
                  rcases List.mem_append.mp h with h2 | h2
                  · exact List.mem_append_left _ h2
                  · have h3 := ih _ c h2
                    refine List.mem_append_right _ ?_
                    rw [render]
                    refine List.mem_append_right _ ?_
                    rw [render]
                    exact List.mem_append_right _ h3
                · rw [collapseRepeatsF, if_neg hc, render] at h
                  rw [render]
                  rcases List.mem_append.mp h with h2 | h2
                  · exact List.mem_append_left _ h2
                  · exact List.mem_append_right _ (ih _ c h2)

theorem lastSpace_render_tail {t : Tok} {rest : List Tok}
    (hne : render rest ≠ [])
    (h : lastSpace (render (t :: rest)) = false) :
    lastSpace (render rest) = false := by
  rw [render, lastSpace_append hne] at h
  exact h

theorem lastSpace_render_crF :
    ∀ (fuel : Nat) (ts : List Tok), toksOK ts = true →
      lastSpace (render ts) = false →
      lastSpace (render (collapseRepeatsF fuel ts)) = false := by
  intro fuel
  induction fuel with
  | zero => intro ts _ h; exact h
  | succ n ih =>
    intro ts hok h
    cases ts with
    | nil => rwa [crF_nil]
    | cons t rest =>
      cases t with
      | sep s =>
        show lastSpace (render (Tok.sep s :: collapseRepeatsF n rest)) = false
        rw [render]
        cases rest with
        | nil =>
          rw [crF_nil]
          rw [render] at h
          exact h
        | cons u rest2 =>
          obtain ⟨l2, hl2⟩ := crF_cons n u rest2
          have hok2 : toksOK (collapseRepeatsF n (u :: rest2)) = true :=
            toksOK_crF n _ (toksOK_tail hok)
          have hne : render (collapseRepeatsF n (u :: rest2)) ≠ [] := by
            rw [hl2] at hok2 ⊢
            exact render_ne_nil hok2
          rw [lastSpace_append hne]
          exact ih _ (toksOK_tail hok)
            (lastSpace_render_tail (render_ne_nil (toksOK_tail hok)) h)
      | word w1 =>
        cases rest with
        | nil =>
          show lastSpace (render (Tok.word w1 :: collapseRepeatsF n [])) = false
          rw [crF_nil]
          exact h
        | cons t2 rest2 =>
          cases t2 with
          | word w2 =>
            show lastSpace (render (Tok.word w1 ::
              collapseRepeatsF n (Tok.word w2 :: rest2))) = false
            rw [render]
            obtain ⟨l2, hl2⟩ := crF_cons n (Tok.word w2) rest2
            have hok2 : toksOK (collapseRepeatsF n (Tok.word w2 :: rest2)) = true :=
              toksOK_crF n _ (toksOK_tail hok)
            have hne : render (collapseRepeatsF n (Tok.word w2 :: rest2)) ≠ [] := by
              rw [hl2] at hok2 ⊢
              exact render_ne_nil hok2
            rw [lastSpace_append hne]
            exact ih _ (toksOK_tail hok)
              (lastSpace_render_tail (render_ne_nil (toksOK_tail hok)) h)
          | sep s =>
            cases rest2 with
            | nil =>
              show lastSpace (render (Tok.word w1 ::
                collapseRepeatsF n [Tok.sep s])) = false
              rw [render]
              obtain ⟨l2, hl2⟩ := crF_cons n (Tok.sep s) []
              have hok2 : toksOK (collapseRepeatsF n [Tok.sep s]) = true :=
                toksOK_crF n _ (toksOK_tail hok)
              have hne : render (collapseRepeatsF n [Tok.sep s]) ≠ [] := by
                rw [hl2] at hok2 ⊢
                exact render_ne_nil hok2
              rw [lastSpace_append hne]
              exact ih _ (toksOK_tail hok)
                (lastSpace_render_tail (render_ne_nil (toksOK_tail hok)) h)
            | cons t3 rest3 =>
              cases t3 with
              | sep s2 =>
                show lastSpace (render (Tok.word w1 ::
                  collapseRepeatsF n (Tok.sep s :: Tok.sep s2 :: rest3))) = false
                rw [render]
                obtain ⟨l2, hl2⟩ := crF_cons n (Tok.sep s) (Tok.sep s2 :: rest3)
                have hok2 : toksOK (collapseRepeatsF n
                    (Tok.sep s :: Tok.sep s2 :: rest3)) = true :=
                  toksOK_crF n _ (toksOK_tail hok)
                have hne : render (collapseRepeatsF n
                    (Tok.sep s :: Tok.sep s2 :: rest3)) ≠ [] := by
                  rw [hl2] at hok2 ⊢
                  exact render_ne_nil hok2
                rw [lastSpace_append hne]
                exact ih _ (toksOK_tail hok)
                  (lastSpace_render_tail (render_ne_nil (toksOK_tail hok)) h)
              | word w2 =>
                have hokSW : toksOK (Tok.sep s :: Tok.word w2 :: rest3) = true :=
                  toksOK_tail hok
                have hokW : toksOK (Tok.word w2 :: rest3) = true := toksOK_tail hokSW
                have hrest3 : toksOK rest3 = true := toksOK_tail hokW
                by_cases hc : 2 ≤ w1.length ∧ s.all wsChar = true ∧
                    lowerL w1 = lowerL w2
                · rw [collapseRepeatsF, if_pos hc, render]
                  have hok1 : w1.all wordChar = true := (toksOK_word_fields hok).2
                  cases rest3 with
                  | nil =>
                    rw [crF_nil, render, List.append_nil]
                    exact lastSpace_of_noWs (word_all_noWs hok1)
                  | cons u rest4 =>
                    obtain ⟨l2, hl2⟩ := crF_cons n u rest4
                    have hok2 : toksOK (collapseRepeatsF n (u :: rest4)) = true :=
                      toksOK_crF n _ hrest3
                    have hne : render (collapseRepeatsF n (u :: rest4)) ≠ [] := by
                      rw [hl2] at hok2 ⊢
                      exact render_ne_nil hok2
                    rw [lastSpace_append hne]
                    refine ih _ hrest3 ?_
                    have h1 := lastSpace_render_tail (render_ne_nil hokSW) h
                    have h2 := lastSpace_render_tail (render_ne_nil hokW) h1
                    exact lastSpace_render_tail (render_ne_nil hrest3) h2
                · rw [collapseRepeatsF, if_neg hc, render]
                  obtain ⟨l2, hl2⟩ := crF_cons n (Tok.sep s) (Tok.word w2 :: rest3)
                  have hok2 : toksOK (collapseRepeatsF n
                      (Tok.sep s :: Tok.word w2 :: rest3)) = true :=
                    toksOK_crF n _ hokSW
                  have hne : render (collapseRepeatsF n
                      (Tok.sep s :: Tok.word w2 :: rest3)) ≠ [] := by
                    rw [hl2] at hok2 ⊢
                    exact render_ne_nil hok2
                  rw [lastSpace_append hne]
                  exact ih _ hokSW (lastSpace_render_tail (render_ne_nil hokSW) h)
/-! ### The whitespace invariant of `vtt_to_text` -/

theorem wordRepeatCollapse_eq (l : List Char) :
    wordRepeatCollapse l =
      render (collapseRepeatsF (tokenize l).length (tokenize l)) := rfl

theorem vtt_invariant (lines : List (List Char)) :
    noDub (vtt_to_text lines) = true ∧ headSpace (vtt_to_text lines) = false ∧
      lastSpace (vtt_to_text lines) = false ∧ onlySp (vtt_to_text lines) = true := by
  have hj : vtt_to_text lines =
      wordRepeatCollapse (stripStr (collapseWs (joinSpace (keepLines lines [])))) := rfl
  set j := joinSpace (keepLines lines []) with hjdef
  set t2 := stripStr (collapseWs j) with ht2
  have h1 : noDub (collapseWs j) = true := noDub_collapseWs j
  have h2 : onlySp (collapseWs j) = true := onlySp_collapseWs j
  have h3 : noDub t2 = true := noDub_stripStr h1
  have h4 : onlySp t2 = true := onlySp_stripStr h2
  have h5 : headSpace t2 = false := headSpace_stripStr _
  have h6 : lastSpace t2 = false := lastSpace_stripStr _
  have hok : toksOK (tokenize t2) = true := toksOK_tokenize h3
  have hokc : toksOK (collapseRepeatsF (tokenize t2).length (tokenize t2)) = true :=
    toksOK_crF _ _ hok
  rw [hj, wordRepeatCollapse_eq]
  refine ⟨noDub_render hokc, ?_, ?_, ?_⟩
  · rw [headSpace_render_crF _ hok, render_tokenize]
    exact h5
  · refine lastSpace_render_crF _ _ hok ?_
    rw [render_tokenize]
    exact h6
  · refine onlySp_mono (fun c hc => ?_) h4
    have := mem_render_crF _ _ c hc
    rwa [render_tokenize] at this

theorem joinSpace_singleton (x : List Char) : joinSpace [x] = x := by
  simp [joinSpace, List.intercalate]

/-- Feeding a string that survives all the line filters back through the
pipeline as a single content line reproduces it, provided it is already
whitespace-normalized, tag-free and repeat-free. -/
theorem vtt_single {o : List Char} (hnd : noDub o = true)
    (hhs : headSpace o = false) (hls : lastSpace o = false)
    (hsp : onlySp o = true) (h1 : startsDrop o = false)
    (h2 : isDigitStr o = false) (h3 : timeLike o = false)
    (h4 : noiseBracket o = false) (h5 : stripTags o = o)
    (h6 : wordRepeatCollapse o = o) :
    vtt_to_text [o] = o := by
  cases honil : o.isEmpty with
  | true =>
    have : o = [] := List.isEmpty_iff.mp honil
    subst this
    rfl
  | false =>
    have hself : stripStr o = o := stripStr_eq_self hhs hls
    have hkeep : keepLines [o] [] = [o] := by
      rw [keepLines, hself]
      rw [if_neg (by simp [honil]), if_neg (by simp [h1]), if_neg (by simp [h2]),
        if_neg (by simp [h3]), if_neg (by simp [h4]), if_neg (by simp)]
      rw [h5]
      rfl
    show wordRepeatCollapse (stripStr (collapseWs (joinSpace (keepLines [o] [])))) = o
    rw [hkeep, joinSpace_singleton, collapseWs_eq_self hsp hnd, hself, h6]

/-! ### Selector lemmas -/

theorem find_congrOn {α : Type} (p q : α → Bool) :
    ∀ l : List α, (∀ x ∈ l, p x = q x) → l.find? p = l.find? q := by
  intro l
  induction l with
  | nil => intro h; rfl
  | cons a as ih =>
    intro h
    have ha : p a = q a := h a (by simp)
    cases hp : p a with
    | true =>
      rw [List.find?_cons_of_pos _ hp, List.find?_cons_of_pos _ (ha ▸ hp)]
    | false =>
      rw [List.find?_cons_of_neg _ (by simp [hp]),
        List.find?_cons_of_neg _ (by simp [← ha, hp])]
      exact ih fun x hx => h x (List.mem_cons_of_mem a hx)

theorem choosePool_eq_specChoose (f : List Char) (r : List (List Char))
    (lang : List Char) : choosePool f r lang = specChoose f r lang := by
  unfold choosePool specChoose
  by_cases hm : lang ∈ f :: r
  · rw [if_pos hm, if_pos hm]
  · rw [if_neg hm, if_neg hm]
    have hcongr : findLangMatch (f :: r) lang =
        (f :: r).find? fun k => List.isPrefixOf (lowerL lang) (lowerL k) := by
      unfold findLangMatch
      apply find_congrOn
      intro k hk
      by_cases hke : k = []
      · subst hke
        have hlang : lang ≠ [] := fun he => hm (he ▸ hk)
        cases hl : lang with
        | nil => exact absurd hl hlang
        | cons c cs => simp [lowerL, List.isPrefixOf]
      · simp [List.isEmpty_iff, hke]
    rw [hcongr]
    cases hfind : (f :: r).find? fun k => List.isPrefixOf (lowerL lang) (lowerL k) with
    | none => rfl
    | some k => rfl

theorem select_none_iff (a m : List (List Char)) (lang : List Char) :
    select a m lang = none ↔ a = [] ∧ m = [] := by
  cases a <;> cases m <;> simp [select]

/-! ### The overlap-ratio characterization of `tooSimilar` -/

theorem tooSimilar_iff (a b : List Char) :
    tooSimilar a b = true ↔
      simWords a ≠ [] ∧ simWords b ≠ [] ∧
        (4 : ℚ) / 5 ≤
          (((simWords a).dedup.filter fun w => (simWords b).dedup.contains w).length : ℚ) /
            (min (simWords a).dedup.length (simWords b).dedup.length : ℚ) := by
  rw [tooSimilar]
  constructor
  · intro h
    have h1 := Bool.and_eq_true_iff.mp h
    have h2 := Bool.and_eq_true_iff.mp h1.1
    have hane : simWords a ≠ [] := by
      intro hx
      rw [hx] at h2
      exact absurd h2.1 (by decide)
    have hbne : simWords b ≠ [] := by
      intro hx
      rw [hx] at h2
      have := h2.2
      simp [List.isEmpty_iff] at this
    refine ⟨hane, hbne, ?_⟩
    have hnat : 4 * min (simWords a).dedup.length (simWords b).dedup.length ≤
        5 * ((simWords a).dedup.filter fun w => (simWords b).dedup.contains w).length :=
      of_decide_eq_true h1.2
    have hmin : 0 < min (simWords a).dedup.length (simWords b).dedup.length := by
      have ha0 : (simWords a).dedup ≠ [] := fun hx =>
        hane ((List.dedup_eq_nil _).mp hx)
      have hb0 : (simWords b).dedup ≠ [] := fun hx =>
        hbne ((List.dedup_eq_nil _).mp hx)
      have ha1 : 0 < (simWords a).dedup.length := List.length_pos.mpr ha0
      have hb1 : 0 < (simWords b).dedup.length := List.length_pos.mpr hb0
      omega
    rw [div_le_div_iff₀ (by norm_num) (by exact_mod_cast hmin)]
    rw [mul_comm ((((simWords a).dedup.filter
      fun w => (simWords b).dedup.contains w).length : ℚ)) 5]
    exact_mod_cast hnat
  · intro h
    obtain ⟨hane, hbne, hq⟩ := h
    have hmin : 0 < min (simWords a).dedup.length (simWords b).dedup.length := by
      have ha0 : (simWords a).dedup ≠ [] := fun hx =>
        hane ((List.dedup_eq_nil _).mp hx)
      have hb0 : (simWords b).dedup ≠ [] := fun hx =>
        hbne ((List.dedup_eq_nil _).mp hx)
      have ha1 : 0 < (simWords a).dedup.length := List.length_pos.mpr ha0
      have hb1 : 0 < (simWords b).dedup.length := List.length_pos.mpr hb0
      omega
    refine Bool.and_eq_true_iff.mpr ⟨Bool.and_eq_true_iff.mpr ⟨?_, ?_⟩, ?_⟩
    · simp [List.isEmpty_iff, hane]
    · simp [List.isEmpty_iff, hbne]
    · apply decide_eq_true
      rw [div_le_div_iff₀ (by norm_num) (by exact_mod_cast hmin)] at hq
      rw [mul_comm ((((simWords a).dedup.filter
        fun w => (simWords b).dedup.contains w).length : ℚ)) 5] at hq
      exact_mod_cast hq

/-! ### Tokenizing explicit word/separator shapes -/

theorem isPrefixOf_self : ∀ l : List Char, List.isPrefixOf l l = true := by
  intro l
  induction l with
  | nil => rfl
  | cons c cs ih => simp [List.isPrefixOf, ih]

theorem takeWhile_append_pos {p : Char → Bool} :
    ∀ {w rest : List Char}, w.all p = true →
      (w ++ rest).takeWhile p = w ++ rest.takeWhile p := by
  intro w
  induction w with
  | nil => intro rest _; rfl
  | cons c cs ih =>
    intro rest h
    have h2 : p c = true ∧ cs.all p = true := by
      rw [List.all_cons] at h
      exact Bool.and_eq_true_iff.mp h
    rw [List.cons_append, List.takeWhile_cons_of_pos h2.1, ih h2.2, List.cons_append]

theorem dropWhile_append_pos {p : Char → Bool} :
    ∀ {w rest : List Char}, w.all p = true →
      (w ++ rest).dropWhile p = rest.dropWhile p := by
  intro w
  induction w with
  | nil => intro rest _; rfl
  | cons c cs ih =>
    intro rest h
    have h2 : p c = true ∧ cs.all p = true := by
      rw [List.all_cons] at h
      exact Bool.and_eq_true_iff.mp h
    rw [List.cons_append, List.dropWhile_cons_of_pos h2.1, ih h2.2]

theorem tokenizeF_fuel :
    ∀ (f g : Nat) (l : List Char), l.length ≤ f → l.length ≤ g →
      tokenizeF f l = tokenizeF g l := by
  intro f
  induction f with
  | zero =>
    intro g l hf _
    rw [Nat.le_zero, List.length_eq_zero] at hf
    subst hf
    cases g <;> rfl
  | succ n ih =>
    intro g l hf hg
    cases l with
    | nil => cases g <;> rfl
    | cons c cs =>
      cases g with
      | zero => simp at hg
      | succ m =>
        rw [tokenizeF, tokenizeF]
        have hcsf : cs.length ≤ n := by simpa using hf
        have hcsg : cs.length ≤ m := by simpa using hg
        by_cases hw : wordChar c
        · rw [if_pos hw, if_pos hw]
          have hd := dropWhile_length_le wordChar cs
          rw [ih m _ (by omega) (by omega)]
        · rw [if_neg hw, if_neg hw]
          have hd := dropWhile_length_le (fun d => !wordChar d) cs
          rw [ih m _ (by omega) (by omega)]

theorem tokenizeF_eq_tokenize {fuel : Nat} {l : List Char} (h : l.length ≤ fuel) :
    tokenizeF fuel l = tokenize l :=
  tokenizeF_fuel fuel l.length l h le_rfl

theorem tokenize_cons_word {w rest : List Char} (hne : w ≠ [])
    (hall : w.all wordChar = true)
    (hrest : ∀ d ds, rest = d :: ds → wordChar d = false) :
    tokenize (w ++ rest) = Tok.word w :: tokenize rest := by
  cases w with
  | nil => exact absurd rfl hne
  | cons c cs =>
    have h2 : wordChar c = true ∧ cs.all wordChar = true := by
      rw [List.all_cons] at hall
      exact Bool.and_eq_true_iff.mp hall
    have htw : rest.takeWhile wordChar = [] := by
      cases hr : rest with
      | nil => rfl
      | cons d ds => rw [List.takeWhile_cons_of_neg (by simp [hrest d ds hr])]
    have hdw : rest.dropWhile wordChar = rest := by
      cases hr : rest with
      | nil => rfl
      | cons d ds => rw [List.dropWhile_cons_of_neg (by simp [hrest d ds hr])]
    show tokenizeF (c :: (cs ++ rest)).length (c :: (cs ++ rest)) = _
    rw [show (c :: (cs ++ rest)).length = (cs ++ rest).length + 1 from rfl, tokenizeF,
      if_pos h2.1, takeWhile_append_pos h2.2, dropWhile_append_pos h2.2, htw, hdw,
      List.append_nil, tokenizeF_eq_tokenize (by simp)]

theorem tokenize_cons_space {rest : List Char}
    (hrest : ∀ d ds, rest = d :: ds → wordChar d = true) :
    tokenize (' ' :: rest) = Tok.sep [' '] :: tokenize rest := by
  have hw : wordChar ' ' = false := by decide
  have htw : (rest.takeWhile fun d => !wordChar d) = [] := by
    cases hr : rest with
    | nil => rfl
    | cons d ds => rw [List.takeWhile_cons_of_neg (by simp [hrest d ds hr])]
  have hdw : (rest.dropWhile fun d => !wordChar d) = rest := by
    cases hr : rest with
    | nil => rfl
    | cons d ds => rw [List.dropWhile_cons_of_neg (by simp [hrest d ds hr])]
  show tokenizeF (' ' :: rest).length (' ' :: rest) = _
  rw [show (' ' :: rest).length = rest.length + 1 from rfl, tokenizeF, if_neg (by decide),
    htw, hdw, tokenizeF_eq_tokenize le_rfl]

theorem all_head_word {u : List Char} (hall : u.all wordChar = true) :
    ∀ d ds, u = d :: ds → wordChar d = true := by
  intro d ds hx
  subst hx
  rw [List.all_cons] at hall
  exact (Bool.and_eq_true_iff.mp hall).1

theorem tokenize_word_only {u : List Char} (hu0 : u ≠ [])
    (hall : u.all wordChar = true) : tokenize u = [Tok.word u] := by
  have h := @tokenize_cons_word u [] hu0 hall (by intro d ds hx; simp at hx)
  rwa [List.append_nil] at h

theorem head_space_nonword {u : List Char} :
    ∀ d ds, (' ' :: u) = d :: ds → wordChar d = false := by
  intro d ds hx
  injection hx with hx1 hx2
  subst hx1
  decide

theorem tokenize_wsw {w u : List Char} (hw0 : w ≠ []) (hwall : w.all wordChar = true)
    (hu0 : u ≠ []) (huall : u.all wordChar = true) :
    tokenize (w ++ ' ' :: u) = [Tok.word w, Tok.sep [' '], Tok.word u] := by
  rw [tokenize_cons_word hw0 hwall head_space_nonword,
    tokenize_cons_space (all_head_word huall), tokenize_word_only hu0 huall]

theorem wrc_pair_eq {w u : List Char} (hw1 : 2 ≤ w.length)
    (hwall : w.all wordChar = true) (hu0 : u ≠ []) (huall : u.all wordChar = true)
    (hlow : lowerL w = lowerL u) : wordRepeatCollapse (w ++ ' ' :: u) = w := by
  have hw0 : w ≠ [] := by
    intro h
    rw [h] at hw1
    simp at hw1
  rw [wordRepeatCollapse_eq, tokenize_wsw hw0 hwall hu0 huall]
  show render (collapseRepeatsF 3 [Tok.word w, Tok.sep [' '], Tok.word u]) = w
  rw [show (3 : Nat) = 2 + 1 from rfl, collapseRepeatsF, if_pos ⟨hw1, by decide, hlow⟩,
    crF_nil]
  simp [render, Tok.chars]

theorem wrc_triple_eq {w : List Char} (hw1 : 2 ≤ w.length)
    (hwall : w.all wordChar = true) :
    wordRepeatCollapse (w ++ ' ' :: w ++ ' ' :: w) = w ++ ' ' :: w := by
  have hw0 : w ≠ [] := by
    intro h
    rw [h] at hw1
    simp at hw1
  have hy : tokenize (' ' :: (w ++ ' ' :: w)) =
      Tok.sep [' '] :: tokenize (w ++ ' ' :: w) := by
    refine tokenize_cons_space ?_
    intro d ds hx
    cases hwcase : w with
    | nil => exact absurd hwcase hw0
    | cons c cs =>
      rw [hwcase] at hx
      injection hx with hx1 hx2
      subst hx1
      rw [hwcase, List.all_cons] at hwall
      exact (Bool.and_eq_true_iff.mp hwall).1
  have htok : tokenize (w ++ ' ' :: w ++ ' ' :: w) =
      [Tok.word w, Tok.sep [' '], Tok.word w, Tok.sep [' '], Tok.word w] := by
    rw [List.append_assoc, List.cons_append,
      tokenize_cons_word hw0 hwall head_space_nonword, hy,
      tokenize_wsw hw0 hwall hw0 hwall]
  rw [wordRepeatCollapse_eq, htok]
  show render (collapseRepeatsF 5
    [Tok.word w, Tok.sep [' '], Tok.word w, Tok.sep [' '], Tok.word w]) =
    w ++ ' ' :: w
  rw [show (5 : Nat) = 4 + 1 from rfl, collapseRepeatsF, if_pos ⟨hw1, by decide, rfl⟩,
    show collapseRepeatsF 4 [Tok.sep [' '], Tok.word w] = [Tok.sep [' '], Tok.word w]
      from rfl]
  simp [render, Tok.chars]

/-! ### Claim theorems -/

/-- C1: Track selection: for every pair of pools and requested language, a
non-empty automatic pool is always used (never the manual pool), choosing the
requested language if it is an exact key, otherwise the first key in pool
order that case-insensitively starts with the requested language, otherwise
the pool's first key; if the automatic pool is empty and the manual pool is
non-empty, the same three-step rule (here `specChoose`, written from the
spec's words) is applied to the manual pool. -/
theorem c1_track_selection :
    ∀ (f : List Char) (r m : List (List Char)) (lang : List Char),
      select (f :: r) m lang = some (specChoose f r lang, Pool.auto) ∧
      select [] (f :: r) lang = some (specChoose f r lang, Pool.manual) := by
  intro f r m lang
  constructor
  · show some (choosePool f r lang, Pool.auto) = _
    rw [choosePool_eq_specChoose]
  · show some (choosePool f r lang, Pool.manual) = _
    rw [choosePool_eq_specChoose]

/-- C2: Near-duplicate suppression: `too_similar` holds exactly when both
word sets are non-empty and the overlap ratio `|intersection| / min(|A|,|B|)`
is at least `0.8 = 4/5`; and a content line (one passing all the skip
filters) is dropped exactly when it is too similar to the immediately
preceding kept line, the comparison being against that line only. -/
theorem c2_near_duplicate_suppression :
    (∀ a b : List Char, tooSimilar a b = true ↔
      simWords a ≠ [] ∧ simWords b ≠ [] ∧
        (4 : ℚ) / 5 ≤
          (((simWords a).dedup.filter fun w => (simWords b).dedup.contains w).length : ℚ) /
            (min (simWords a).dedup.length (simWords b).dedup.length : ℚ)) ∧
    (∀ (raw : List Char) (rest : List (List Char)) (prev : List Char),
      stripStr raw ≠ [] → startsDrop (stripStr raw) = false →
      isDigitStr (stripStr raw) = false → timeLike (stripStr raw) = false →
      noiseBracket (stripStr raw) = false →
      keepLines (raw :: rest) prev =
        if prev ≠ [] ∧ tooSimilar (stripTags (stripStr raw)) prev = true
        then keepLines rest prev
        else stripTags (stripStr raw) :: keepLines rest (stripTags (stripStr raw))) := by
  refine ⟨tooSimilar_iff, ?_⟩
  intro raw rest prev h1 h2 h3 h4 h5
  rw [keepLines, if_neg (by simp [List.isEmpty_iff]; exact h1),
    if_neg (by simp [h2]), if_neg (by simp [h3]), if_neg (by simp [h4]),
    if_neg (by simp [h5])]

/-- C2 witness: on the spec's concrete scenario the second line is dropped
against the first kept line. -/
theorem c2_witness :
    tooSimilar "Hello world there".toList "hello world".toList = true ∧
    keepLines ["Hello world there".toList] "hello world".toList =
      keepLines [] "hello world".toList := by
  have h := c2_near_duplicate_suppression.2 "Hello world there".toList []
    "hello world".toList (by decide) (by decide) (by decide) (by decide) (by decide)
  rw [if_pos (by decide)] at h
  exact ⟨by decide, h⟩

/-- C3 counterexample: re-running the normalizer on its own output, fed back
as a single content line, is not a no-op: the word-repeat collapse is a
single non-overlapping pass, so `"aa aa aa"` normalizes to `"aa aa"`, which
re-normalizes to `"aa"`. -/
theorem c3_refeed_counterexample :
    vtt_to_text ["aa aa aa".toList] = "aa aa".toList ∧
    vtt_to_text [vtt_to_text ["aa aa aa".toList]] = "aa".toList ∧
    (vtt_to_text [vtt_to_text ["aa aa aa".toList]] ==
      vtt_to_text ["aa aa aa".toList]) = false := by decide

/-- C3 (amended): feeding the normalizer's output back through the pipeline
as a single content line is a no-op provided the output line survives the
line filters (does not start with a drop prefix, is not all digits, is not
time-like, is not a bracketed annotation), is unchanged by tag stripping,
and is already free of immediate word repeats; without these provisos the
fixed-point property fails. -/
theorem c3_refeed_fixed_point (lines : List (List Char))
    (h1 : startsDrop (vtt_to_text lines) = false)
    (h2 : isDigitStr (vtt_to_text lines) = false)
    (h3 : timeLike (vtt_to_text lines) = false)
    (h4 : noiseBracket (vtt_to_text lines) = false)
    (h5 : stripTags (vtt_to_text lines) = vtt_to_text lines)
    (h6 : wordRepeatCollapse (vtt_to_text lines) = vtt_to_text lines) :
    vtt_to_text [vtt_to_text lines] = vtt_to_text lines := by
  obtain ⟨hnd, hhs, hls, hsp⟩ := vtt_invariant lines
  exact vtt_single hnd hhs hls hsp h1 h2 h3 h4 h5 h6

/-- C3 witness: the provisos hold for an ordinary caption and the fixed
point follows. -/
theorem c3_witness :
    vtt_to_text [vtt_to_text ["Hello world".toList]] =
      vtt_to_text ["Hello world".toList] :=
  c3_refeed_fixed_point ["Hello world".toList] (by decide) (by decide) (by decide)
    (by decide) (by decide) (by decide)

/-- C4: Selection failure condition: for every pair of pools and every
requested language string, selection fails if and only if both pools are
empty; a language mismatch alone never causes failure. -/
theorem c4_selection_failure :
    ∀ (a m : List (List Char)) (lang : List Char),
      select a m lang = none ↔ a = [] ∧ m = [] :=
  select_none_iff

/-- C5 counterexample: the key `"PL"` case-insensitively equals the request
`"pl"`, yet the selector chooses the earlier dialect key `"pl-PL"` (exact
matching is case-sensitive, and the prefix scan takes the first
case-insensitive prefix match in pool order, not the equal key). -/
theorem c5_counterexample :
    ("PL".toList ∈ ["pl-PL".toList, "PL".toList]) ∧
    lowerL "PL".toList = lowerL "pl".toList ∧
    select ["pl-PL".toList, "PL".toList] [] "pl".toList =
      some ("pl-PL".toList, Pool.auto) ∧
    ("pl-PL".toList == "PL".toList) = false := by decide

/-- C5 (amended): if some key of the chosen pool equals the requested
language up to case, the selector never falls through to the pool-first
fallback: the chosen key case-insensitively starts with the requested
language — but it need not be the case-insensitively-equal key itself. -/
theorem c5_case_insensitive_matching (f : List Char) (r : List (List Char))
    (lang k : List Char) (hk : k ∈ f :: r) (hkl : lowerL k = lowerL lang) :
    List.isPrefixOf (lowerL lang) (lowerL (choosePool f r lang)) = true := by
  unfold choosePool
  by_cases hm : lang ∈ f :: r
  · rw [if_pos hm]
    exact isPrefixOf_self _
  · rw [if_neg hm]
    have hkne : k ≠ [] := by
      intro he
      subst he
      have hlang : lang = [] := by
        have h0 : lowerL lang = [] := hkl.symm
        rw [lowerL] at h0
        exact List.map_eq_nil_iff.mp h0
      exact hm (hlang ▸ hk)
    have hpk : (!k.isEmpty && List.isPrefixOf (lowerL lang) (lowerL k)) = true := by
      rw [hkl]
      refine Bool.and_eq_true_iff.mpr ⟨?_, isPrefixOf_self _⟩
      simp [List.isEmpty_iff, hkne]
    have hsome : (findLangMatch (f :: r) lang).isSome = true := by
      rw [findLangMatch, List.find?_isSome]
      exact ⟨k, hk, hpk⟩
    obtain ⟨c, hc⟩ := Option.isSome_iff_exists.mp hsome
    rw [hc, Option.getD_some]
    have hc2 : (f :: r).find?
        (fun code => !code.isEmpty && List.isPrefixOf (lowerL lang) (lowerL code)) =
        some c := hc
    have hpc := List.find?_some hc2
    exact (Bool.and_eq_true_iff.mp hpc).2

/-- C5 witness: the amended statement at the counterexample's pool. -/
theorem c5_witness :
    List.isPrefixOf (lowerL "pl".toList)
      (lowerL (choosePool "pl-PL".toList ["PL".toList] "pl".toList)) = true :=
  c5_case_insensitive_matching "pl-PL".toList ["PL".toList] "pl".toList "PL".toList
    (by decide) (by decide)

/-- C6: Error-to-status mapping of `get_subs`: empty pools give 404
`noCaptions`; a failed download gives 404 `materializeFailure`; a successful
download with no discoverable cue file gives 404 `missingOutput`; an empty
normalization result gives 422 `emptyTrack`; each is the terminal result of
the request. -/
theorem c6_error_status_mapping (info : ProbeInfo) (lang : List Char) (dl : Bool)
    (vtts : List (List (List Char))) :
    (get_subs info lang dl vtts = Except.error (404, SubsError.noCaptions) ↔
      info.automatic_captions = [] ∧ info.subtitles = []) ∧
    (get_subs info lang dl vtts = Except.error (404, SubsError.materializeFailure) ↔
      (info.automatic_captions ≠ [] ∨ info.subtitles ≠ []) ∧ dl = false) ∧
    (get_subs info lang dl vtts = Except.error (404, SubsError.missingOutput) ↔
      (info.automatic_captions ≠ [] ∨ info.subtitles ≠ []) ∧ dl = true ∧
        vtts = []) ∧
    (get_subs info lang dl vtts = Except.error (422, SubsError.emptyTrack) ↔
      (info.automatic_captions ≠ [] ∨ info.subtitles ≠ []) ∧ dl = true ∧
        ∃ v rest, vtts = v :: rest ∧ vtt_to_text v = []) := by
  obtain ⟨ac, ms⟩ := info
  refine ⟨?_, ?_, ?_, ?_⟩ <;>
    (cases ac <;> cases ms <;> cases dl <;> cases vtts <;>
      simp [get_subs, select] <;> split_ifs <;> simp_all)

/-- C6 witness: the no-captions case maps to 404. -/
theorem c6_witness :
    get_subs ⟨[], []⟩ "pl".toList true [] =
      Except.error (404, SubsError.noCaptions) :=
  (c6_error_status_mapping ⟨[], []⟩ "pl".toList true []).1.mpr ⟨rfl, rfl⟩

/-- C7: NormalizedText invariant: the normalizer's output has no internal
whitespace run longer than one character and no leading or trailing
whitespace. -/
theorem c7_normalized_text_invariant (lines : List (List Char)) :
    noDub (vtt_to_text lines) = true ∧ headSpace (vtt_to_text lines) = false ∧
      lastSpace (vtt_to_text lines) = false :=
  ⟨(vtt_invariant lines).1, (vtt_invariant lines).2.1, (vtt_invariant lines).2.2.1⟩

/-- C8: Credential provisioning: when the base64 variable is non-empty its
decoded text is the one written, whatever the raw variable holds; and when
no credential text results (both variables blank, or the base64 text decodes
to nothing) the call fails with a 500 configuration error. -/
theorem c8_credential_provisioning
    (decode : List Char → Except (List Char) (List Char)) (b64 raw t : List Char) :
    (stripStr b64 ≠ [] → decode (stripStr b64) = Except.ok t → t ≠ [] →
      write_cookies_file decode b64 raw = Except.ok t) ∧
    (stripStr b64 = [] → stripStr raw = [] →
      write_cookies_file decode b64 raw =
        Except.error (500, CookieError.noCookies)) ∧
    (stripStr b64 ≠ [] → decode (stripStr b64) = Except.ok [] →
      write_cookies_file decode b64 raw =
        Except.error (500, CookieError.noCookies)) := by
  refine ⟨?_, ?_, ?_⟩
  · intro h1 h2 h3
    show (if stripStr b64 ≠ [] then _ else _) = _
    rw [if_pos h1, h2]
    show (if t = [] then _ else _) = _
    rw [if_neg h3]
  · intro h1 h2
    show (if stripStr b64 ≠ [] then _ else _) = _
    rw [if_neg (by simp [h1]), if_neg (by simp [h2])]
  · intro h1 h2
    show (if stripStr b64 ≠ [] then _ else _) = _
    rw [if_pos h1, h2]
    show (if ([] : List Char) = [] then _ else _) = _
    rw [if_pos rfl]

/-- C8 witness: a decoded base64 credential is written even when the raw
variable is set, and two blank variables are a 500 configuration error. -/
theorem c8_witness :
    write_cookies_file (fun _ => Except.ok "secret".toList) "QQ==".toList
      "rawcookie".toList = Except.ok "secret".toList ∧
    write_cookies_file (fun _ => Except.ok "secret".toList) "   ".toList
      "".toList = Except.error (500, CookieError.noCookies) :=
  ⟨(c8_credential_provisioning (fun _ => Except.ok "secret".toList) "QQ==".toList
      "rawcookie".toList "secret".toList).1 (by decide) rfl (by decide),
   (c8_credential_provisioning (fun _ => Except.ok "secret".toList) "   ".toList
      "".toList "secret".toList).2.1 (by decide) (by decide)⟩

/-- C9: the immediate word-repeat collapse is a single non-overlapping
left-to-right pass: a word of length at least two repeated three times
collapses to two occurrences, not one (so the output can still contain an
adjacent duplicate), and when a case-insensitive pair collapses, the first
occurrence's capitalization is kept. -/
theorem c9_word_repeat_single_pass (w u : List Char) (hw1 : 2 ≤ w.length)
    (hwall : w.all wordChar = true) (hu0 : u ≠ []) (huall : u.all wordChar = true)
    (hlow : lowerL w = lowerL u) :
    wordRepeatCollapse (w ++ ' ' :: w ++ ' ' :: w) = w ++ ' ' :: w ∧
    wordRepeatCollapse (w ++ ' ' :: u) = w :=
  ⟨wrc_triple_eq hw1 hwall, wrc_pair_eq hw1 hwall hu0 huall hlow⟩

/-- C9 witness: `"aa aa aa"` collapses to `"aa aa"`, and `"aa aA"` collapses
to `"aa"`, keeping the first spelling. -/
theorem c9_witness :
    wordRepeatCollapse ("aa".toList ++ ' ' :: "aa".toList ++ ' ' :: "aa".toList) =
      "aa".toList ++ ' ' :: "aa".toList ∧
    wordRepeatCollapse ("aa".toList ++ ' ' :: "aA".toList) = "aa".toList :=
  c9_word_repeat_single_pass "aa".toList "aA".toList (by decide) (by decide)
    (by decide) (by decide) (by decide)

/-- C10: once the base64 variable is non-empty the raw variable is never
consulted: a decode to the empty string is the 500 no-cookies error and a
decode failure is the 500 decode error, regardless of the raw variable. -/
theorem c10_b64_short_circuit
    (decode : List Char → Except (List Char) (List Char)) (b64 raw e : List Char)
    (hb : stripStr b64 ≠ []) :
    (decode (stripStr b64) = Except.ok [] →
      write_cookies_file decode b64 raw =
        Except.error (500, CookieError.noCookies)) ∧
    (decode (stripStr b64) = Except.error e →
      write_cookies_file decode b64 raw =
        Except.error (500, CookieError.decodeError)) := by
  constructor
  · intro h
    show (if stripStr b64 ≠ [] then _ else _) = _
    rw [if_pos hb, h]
    show (if ([] : List Char) = [] then _ else _) = _
    rw [if_pos rfl]
  · intro h
    show (if stripStr b64 ≠ [] then _ else _) = _
    rw [if_pos hb, h]

/-- C10 witness: with a set base64 variable and a non-empty raw variable,
an empty decode is a 500 no-cookies error and a raised decode is a 500
decode error — the raw credentials are never used. -/
theorem c10_witness :
    write_cookies_file (fun _ => Except.ok []) "QQ==".toList
      "rawcookie".toList = Except.error (500, CookieError.noCookies) ∧
    write_cookies_file (fun _ => Except.error "boom".toList) "QQ==".toList
      "rawcookie".toList = Except.error (500, CookieError.decodeError) :=
  ⟨(c10_b64_short_circuit (fun _ => Except.ok []) "QQ==".toList
      "rawcookie".toList "boom".toList (by decide)).1 rfl,
   (c10_b64_short_circuit (fun _ => Except.error "boom".toList) "QQ==".toList
      "rawcookie".toList "boom".toList (by decide)).2 rfl⟩

end YtCaptions
